import Mathlib

/-!
Verification of the linear-algebra kernel (dense Matrix, RREF reducer,
Gauss-Jordan solver, vector-space predicates).

The scalar type is modelled by the exact rationals; the vector predicates
that the source computes with square roots are modelled over the reals.
Matrices are row-major lists of rows, as in the source, where a Matrix owns
nrows x ncols storage and every row has exactly ncols elements.

Each definition below is a direct translation of the corresponding source
function; the source file and function are named in its doc comment.
-/

/-- The closed error-code set from errors.hpp / models.hpp. -/
inductive ErrorCode where
  | UNKNOWN_ERROR
  | UNDERDETERMINED_SYSTEM
  | FREE_COLUMNS_RREF
  | INFINITE_SOLUTIONS
  | NO_SOLUTIONS
  | INCOMPATIBLE_VECTORS
deriving DecidableEq, Repr

/-- The discriminated success/error result type (`Result<T, ErrorCode>`). -/
inductive Res (α : Type) where
  | ok (val : α) : Res α
  | err (e : ErrorCode) : Res α
deriving DecidableEq, Repr

/-- Dot product of two vectors, from the `operator*(Vector, Vector)` overload
in vector.hpp: an accumulator summing `lhs[i] * rhs[i]`. -/
def dot (v1 v2 : List ℚ) : ℚ :=
  (List.zipWith (fun x y => x * y) v1 v2).sum

/-- Source `Vector::mod()` from vector.hpp: the sum of squares of the elements
(the squared magnitude, despite the name). -/
def modSq (v : List ℚ) : ℚ :=
  (v.map (fun x => x * x)).sum

/-- Source `are_linearly_dependent(v1, v2)` from vectorspaces.hpp: if the sizes
match, succeed with `dot*dot == v1.mod()*v2.mod()`; otherwise fail with
`INCOMPATIBLE_VECTORS`. -/
def are_linearly_dependent (v1 v2 : List ℚ) : Res Bool :=
  if v1.length = v2.length then
    .ok (decide (dot v1 v2 * dot v1 v2 = modSq v1 * modSq v2))
  else
    .err ErrorCode.INCOMPATIBLE_VECTORS

/-- Dot product over the reals (for the predicates the source computes in
`double`). -/
def dotReal (v1 v2 : List ℝ) : ℝ :=
  (List.zipWith (fun x y => x * y) v1 v2).sum

/-- Source `Vector::mod()` over the reals: sum of squares of the elements. -/
def modSqReal (v : List ℝ) : ℝ :=
  (v.map (fun x => x * x)).sum

/-- Source `cosine_angle(v1, v2)` from vectorspaces.hpp: if the sizes match,
succeed with `dot / sqrt(v1.mod() * v2.mod())`; else `INCOMPATIBLE_VECTORS`. -/
noncomputable def cosine_angle (v1 v2 : List ℝ) : Res ℝ :=
  if v1.length = v2.length then
    .ok (dotReal v1 v2 / Real.sqrt (modSqReal v1 * modSqReal v2))
  else
    .err ErrorCode.INCOMPATIBLE_VECTORS

/-- The magnitude of a vector, `sqrt(v.mod())` (spec-side notion `|v|`). -/
noncomputable def magnitude (v : List ℝ) : ℝ :=
  Real.sqrt (modSqReal v)

/-! ## Matrix representation

A matrix is its list of rows (row-major storage). `nrows`/`ncols` mirror
`Matrix::getRows()` / `Matrix::getCols()`; well-formedness (`MatWf`) is the
construction invariant that every row has exactly `ncols` elements. -/

abbrev Mat := List (List ℚ)

def nrows (m : Mat) : Nat := m.length

def ncols (m : Mat) : Nat := (m.headD []).length

/-- The row view `matrix[i]` (in-bounds reads only; bounds checking is
modelled separately for the checked operations). -/
def getRow (m : Mat) (i : Nat) : List ℚ := m.getD i []

/-- The element `matrix[i][j]`. -/
def entry (m : Mat) (i j : Nat) : ℚ := (getRow m i).getD j 0

/-- Construction invariant: every row has exactly `ncols` elements. -/
def MatWf (m : Mat) : Prop := ∀ row ∈ m, row.length = ncols m

instance : DecidablePred MatWf := fun m =>
  decidable_of_iff (∀ row ∈ m, row.length = ncols m) Iff.rfl

/-- Source `Matrix::linearCombRows(r1, a, r2, b)` from matrix.hpp: replace row r1
with `a*row(r1) + b*row(r2)`, elementwise over the ncols columns. -/
def linearCombRows (m : Mat) (r1 : Nat) (a : ℚ) (r2 : Nat) (b : ℚ) : Mat :=
  m.set r1 (List.zipWith (fun x y => a * x + b * y) (getRow m r1) (getRow m r2))

/-- Source `Matrix::exchangeRows(r1, r2)` from matrix.hpp: swap the two rows. -/
def exchangeRows (m : Mat) (r1 r2 : Nat) : Mat :=
  (m.set r1 (getRow m r2)).set r2 (getRow m r1)

/-- Source `Matrix::scaleRow(row, factor)` from matrix.hpp: multiply every element
of the row by the factor (`elem *= factor`). -/
def scaleRow (m : Mat) (r : Nat) (f : ℚ) : Mat :=
  m.set r ((getRow m r).map (fun x => x * f))

/-- Writing one element, `matrix[r][c] = x`. -/
def setEntry (m : Mat) (r c : Nat) (x : ℚ) : Mat :=
  m.set r ((getRow m r).set c x)

/-! ## RREF reducer (rref.hpp) -/

/-- Source `findNextPivot(matrix, startRow, startCol)` from rref.hpp: the first row
index strictly below `startRow` whose entry in column `startCol` is nonzero. -/
def findNextPivot (m : Mat) (startRow startCol : Nat) : Option Nat :=
  (List.range (nrows m)).find?
    (fun i => decide (startRow < i) && decide (entry m i startCol ≠ 0))

/-- One iteration of the inner elimination loop of `rref` for pivot column i
and row r: skip when `matrix[r][i] == 0` or `r == i`; otherwise replace row r
with `1*row(r) + (-(matrix[r][i]/matrix[i][i]))*row(i)` and then force
`matrix[r][i]` to exact zero. -/
def elimRow (m : Mat) (i r : Nat) : Mat :=
  if entry m r i = 0 ∨ r = i then m
  else setEntry (linearCombRows m r 1 i (-(entry m r i / entry m i i))) r i 0

/-- The inner elimination loop of `rref`: apply `elimRow` to every row. -/
def elimLoop (m : Mat) (i : Nat) : Mat :=
  (List.range (nrows m)).foldl (fun acc r => elimRow acc i r) m

/-- Elimination followed by pivot normalization
(`matrix.scaleRow(i, 1/matrix[i][i])`), the body of a secured pivot step. -/
def elimNormalize (m : Mat) (i : Nat) : Mat :=
  scaleRow (elimLoop m i) i (1 / entry (elimLoop m i) i i)

/-- One pivot iteration of `rref` (rref.hpp): if `matrix[i][i] == 0`, look
for a pivot below; none flags a free column and skips the rest of the
iteration; otherwise exchange rows and proceed to eliminate and normalize.
The Bool is true exactly when this iteration flagged a free column. -/
def pivotStep (m : Mat) (i : Nat) : Mat × Bool :=
  if entry m i i = 0 then
    match findNextPivot m i i with
    | none => (m, true)
    | some j => (elimNormalize (exchangeRows m i j) i, false)
  else
    (elimNormalize m i, false)

/-- The main loop of `rref`: iterate `pivotStep` over pivot indices
`i, i+1, ...` for `fuel` iterations, latching the free-column flag. -/
def rrefLoop : Mat → Bool → Nat → Nat → Mat × Bool
  | m, free, _, 0 => (m, free)
  | m, free, i, fuel + 1 =>
    let s := pivotStep m i
    rrefLoop s.1 (free || s.2) (i + 1) fuel

/-- Source `rref(matrix)` from rref.hpp: run the pivot loop for
`min(nrows, ncols)` iterations; fail with `FREE_COLUMNS_RREF` iff the
free-column flag was set, returning the mutated matrix either way. -/
def rref (m : Mat) : Mat × Option ErrorCode :=
  let s := rrefLoop m false 0 (min (nrows m) (ncols m))
  (s.1, if s.2 then some ErrorCode.FREE_COLUMNS_RREF else none)

/-- The matrix state after the first `k` pivot iterations of `rref`. -/
def rrefState (m : Mat) (k : Nat) : Mat := (rrefLoop m false 0 k).1

/-- Pivot index k flags a free column: at the state reached after the first
k iterations, the diagonal entry is zero and no row below has a nonzero
entry in column k. -/
def freeAt (m : Mat) (k : Nat) : Prop :=
  entry (rrefState m k) k k = 0 ∧ findNextPivot (rrefState m k) k k = none

/-! ## Gauss-Jordan solver (gaussjordan.hpp) -/

/-- Source `falseIndentityRow(row)` from rref.hpp: the rightmost element is nonzero
and every other element is zero (a contradiction row `0 = c`, c nonzero). -/
def falseIndentityRow (row : List ℚ) : Bool :=
  if row.getD (row.length - 1) 0 = 0 then false
  else (row.take (row.length - 1)).all (fun x => decide (x = 0))

/-- The scan of `gaussJordan` over the reduced matrix: test the rows from
the last row upward (`matrix[getRows() - rowNum - 1]`) for a contradiction
row. -/
def gjScan (m : Mat) : Bool :=
  (List.range (nrows m)).any (fun rowNum => falseIndentityRow (getRow m (nrows m - rowNum - 1)))

/-- The error-classification branch of `gaussJordan` taken when `rref`
failed with error e: for `FREE_COLUMNS_RREF`, scan for a contradiction row
to decide `NO_SOLUTIONS` vs `INFINITE_SOLUTIONS`; anything else becomes
`UNKNOWN_ERROR`. -/
def gjClassify (m : Mat) (e : ErrorCode) : ErrorCode :=
  if e = ErrorCode.FREE_COLUMNS_RREF then
    if gjScan m then ErrorCode.NO_SOLUTIONS else ErrorCode.INFINITE_SOLUTIONS
  else ErrorCode.UNKNOWN_ERROR

/-- Source `gaussJordan(matrix)` from gaussjordan.hpp: reject
`nrows < ncols - 1` with `UNDERDETERMINED_SYSTEM` before reducing;
otherwise run `rref` in place and classify its failure. Returns the final
matrix state together with the status. -/
def gaussJordan (m : Mat) : Mat × Res Unit :=
  if nrows m < ncols m - 1 then
    (m, .err ErrorCode.UNDERDETERMINED_SYSTEM)
  else
    match rref m with
    | (m2, none) => (m2, .ok ())
    | (m2, some e) => (m2, .err (gjClassify m2 e))

/-! ## Bounds-checked row operations (matrix.hpp)

The source guards each row operation with `if (r > nrows) throw
std::out_of_range(...)` and then dereferences `rows[r]`. The outcome type
distinguishes the thrown `out_of_range` (`oob`) from an out-of-bounds raw
access to the slice array (`ub`, undefined behavior in the source), which
happens exactly when an index passes the guard but is not below nrows. -/

inductive RowOpOutcome where
  | oob
  | ub
  | ok (m : Mat)
deriving DecidableEq, Repr

/-- The guarded `Matrix::linearCombRows`: guard `r1 > nrows || r2 > nrows`
(as written in the source), then access `rows[r1]` and `rows[r2]`. -/
def linearCombRowsChecked (m : Mat) (r1 : Nat) (a : ℚ) (r2 : Nat) (b : ℚ) : RowOpOutcome :=
  if r1 > nrows m ∨ r2 > nrows m then .oob
  else if r1 ≥ nrows m ∨ r2 ≥ nrows m then .ub
  else .ok (linearCombRows m r1 a r2 b)

/-- The guarded `Matrix::exchangeRows`: guard `r1 > nrows || r2 > nrows`,
then swap `rows[r1]` and `rows[r2]`. -/
def exchangeRowsChecked (m : Mat) (r1 r2 : Nat) : RowOpOutcome :=
  if r1 > nrows m ∨ r2 > nrows m then .oob
  else if r1 ≥ nrows m ∨ r2 ≥ nrows m then .ub
  else .ok (exchangeRows m r1 r2)

/-- The guarded `Matrix::scaleRow`: guard `row > nrows`, then iterate over
`rows[row]`. -/
def scaleRowChecked (m : Mat) (r : Nat) (f : ℚ) : RowOpOutcome :=
  if r > nrows m then .oob
  else if r ≥ nrows m then .ub
  else .ok (scaleRow m r f)

/-! ## Linear independence of a set of vectors (vectorspaces.hpp)

Two observed variants. The first (`linearIndependenceOfSystem`,
Sigabrt-namespace header) builds a homogeneous augmented matrix: one row
per vector with an explicit zero right-hand column. The second
(`linear_independence_of_system`, numeric-namespace variant) builds a bare
coefficient matrix with one column per vector (`mat[i][j] = vectors[j][i]`).
Both then run the reducer and map its outcome identically. -/

/-- Shared guards and reducer-outcome mapping; `mat` is the matrix the
variant assembled. -/
def linIndepOutcome (mat : Mat) : Res Bool :=
  match (rref mat).2 with
  | some ErrorCode.FREE_COLUMNS_RREF => .ok false
  | some _ => .err ErrorCode.UNKNOWN_ERROR
  | none => .ok true

/-- Source `linearIndependenceOfSystem(vectors)` (homogeneous augmented variant):
reject a single vector (`UNDERDETERMINED_SYSTEM`); reject unequal dimensions
(`INCOMPATIBLE_VECTORS`); more vectors than dimensions is immediately
dependent; otherwise reduce the `count x (len+1)` matrix whose rows are the
vectors with a zero appended. -/
def linearIndependenceOfSystem (vs : List (List ℚ)) : Res Bool :=
  if vs.length = 1 then .err ErrorCode.UNDERDETERMINED_SYSTEM
  else
    let len := (vs.headD []).length
    if vs.any (fun v => decide (v.length ≠ len)) then .err ErrorCode.INCOMPATIBLE_VECTORS
    else if vs.length > len then .ok false
    else linIndepOutcome (vs.map (fun v => v ++ [0]))

/-- Source `linear_independence_of_system(vectors)` (bare coefficient variant):
same guards; otherwise reduce the `len x count` matrix whose columns are
the vectors (`mat[i][j] = vectors[j][i]`). -/
def linear_independence_of_system (vs : List (List ℚ)) : Res Bool :=
  if vs.length = 1 then .err ErrorCode.UNDERDETERMINED_SYSTEM
  else
    let len := (vs.headD []).length
    if vs.any (fun v => decide (v.length ≠ len)) then .err ErrorCode.INCOMPATIBLE_VECTORS
    else if vs.length > len then .ok false
    else linIndepOutcome ((List.range len).map (fun i => vs.map (fun v => v.getD i 0)))

/-- A variant of `linearIndependenceOfSystem` that models the
`vectors[0]` access explicitly: `std::vector::operator[]` performs no
bounds check, so reading `vectors[0]` from an empty list is an
out-of-bounds access (modelled as `none`). -/
def linearIndependenceOfSystemChecked (vs : List (List ℚ)) : Option (Res Bool) :=
  if vs.length = 1 then some (.err ErrorCode.UNDERDETERMINED_SYSTEM)
  else
    match vs.head? with
    | none => none
    | some v0 =>
      let len := v0.length
      if vs.any (fun v => decide (v.length ≠ len)) then some (.err ErrorCode.INCOMPATIBLE_VECTORS)
      else if vs.length > len then some (.ok false)
      else some (linIndepOutcome (vs.map (fun v => v ++ [0])))

/-! ## Basic access lemmas -/

theorem list_getD_eq_getElem {α : Type} (l : List α) (i : Nat) (d : α) (h : i < l.length) :
    l.getD i d = l[i] := by
  rw [List.getD_eq_getElem?_getD, List.getElem?_eq_getElem h]
  rfl

theorem list_getD_set_self {α : Type} (l : List α) (i : Nat) (a d : α) (h : i < l.length) :
    (l.set i a).getD i d = a := by
  rw [List.getD_eq_getElem?_getD, List.getElem?_set_self h]
  rfl

theorem list_getD_set_ne {α : Type} (l : List α) (i j : Nat) (a d : α) (h : i ≠ j) :
    (l.set i a).getD j d = l.getD j d := by
  rw [List.getD_eq_getElem?_getD, List.getElem?_set_ne h, List.getD_eq_getElem?_getD]

theorem list_set_getD {α : Type} (l : List α) (i : Nat) (d : α) (h : i < l.length) :
    l.set i (l.getD i d) = l := by
  apply List.ext_getElem?
  intro n
  by_cases hn : n = i
  · subst hn
    rw [List.getElem?_set_self h, list_getD_eq_getElem l n d h, List.getElem?_eq_getElem h]
  · rw [List.getElem?_set_ne (fun he => hn he.symm)]

theorem list_getD_map (l : List ℚ) (f : ℚ → ℚ) (i : Nat) (d : ℚ) (h : i < l.length) :
    (l.map f).getD i d = f l[i] := by
  rw [list_getD_eq_getElem _ i d (by simpa using h), List.getElem_map]

theorem list_getD_zipWith (f : ℚ → ℚ → ℚ) (a b : List ℚ) (i : Nat) (d : ℚ)
    (ha : i < a.length) (hb : i < b.length) :
    (List.zipWith f a b).getD i d = f a[i] b[i] := by
  rw [list_getD_eq_getElem _ i d (by simp [List.length_zipWith]; omega)]
  simp

theorem nrows_set (m : Mat) (i : Nat) (r : List ℚ) : nrows (m.set i r) = nrows m := by
  simp [nrows]

theorem getRow_set_self (m : Mat) (i : Nat) (r : List ℚ) (h : i < nrows m) :
    getRow (m.set i r) i = r :=
  list_getD_set_self m i r [] h

theorem getRow_set_ne (m : Mat) (i j : Nat) (r : List ℚ) (h : i ≠ j) :
    getRow (m.set i r) j = getRow m j :=
  list_getD_set_ne m i j r [] h

theorem getRow_mem (m : Mat) (i : Nat) (h : i < nrows m) : getRow m i ∈ m := by
  rw [getRow, list_getD_eq_getElem m i [] h]
  exact List.getElem_mem h

theorem length_getRow (m : Mat) (i : Nat) (wf : MatWf m) (h : i < nrows m) :
    (getRow m i).length = ncols m :=
  wf (getRow m i) (getRow_mem m i h)

theorem getRow_out (m : Mat) (i : Nat) (h : nrows m ≤ i) : getRow m i = [] := by
  rw [getRow, List.getD_eq_getElem?_getD, List.getElem?_eq_none h]
  rfl

theorem set_out (m : Mat) (i : Nat) (r : List ℚ) (h : nrows m ≤ i) : m.set i r = m :=
  List.set_eq_of_length_le h

theorem ncols_set (m : Mat) (i : Nat) (r : List ℚ) (h : r.length = ncols m) :
    ncols (m.set i r) = ncols m := by
  cases m with
  | nil => simp [ncols]
  | cons hd tl =>
    cases i with
    | zero => simpa [ncols] using h
    | succ n => simp [ncols]

theorem matWf_set (m : Mat) (i : Nat) (r : List ℚ) (wf : MatWf m) (h : r.length = ncols m) :
    MatWf (m.set i r) := by
  intro row hrow
  rw [ncols_set m i r h]
  rcases List.mem_or_eq_of_mem_set hrow with hmem | heq
  · exact wf row hmem
  · rw [heq]; exact h

/-! ## Row operation characterizations -/

theorem nrows_scaleRow (m : Mat) (r : Nat) (f : ℚ) : nrows (scaleRow m r f) = nrows m :=
  nrows_set _ _ _

theorem nrows_setEntry (m : Mat) (r c : Nat) (x : ℚ) : nrows (setEntry m r c x) = nrows m :=
  nrows_set _ _ _

theorem nrows_linearCombRows (m : Mat) (r1 : Nat) (a : ℚ) (r2 : Nat) (b : ℚ) :
    nrows (linearCombRows m r1 a r2 b) = nrows m :=
  nrows_set _ _ _

theorem nrows_exchangeRows (m : Mat) (r1 r2 : Nat) : nrows (exchangeRows m r1 r2) = nrows m := by
  rw [exchangeRows, nrows_set, nrows_set]

theorem getRow_scaleRow_self (m : Mat) (r : Nat) (f : ℚ) (h : r < nrows m) :
    getRow (scaleRow m r f) r = (getRow m r).map (fun x => x * f) :=
  getRow_set_self m r _ h

theorem getRow_scaleRow_ne (m : Mat) (r r2 : Nat) (f : ℚ) (h : r2 ≠ r) :
    getRow (scaleRow m r f) r2 = getRow m r2 :=
  getRow_set_ne m r r2 _ (fun he => h he.symm)

theorem getRow_setEntry_ne (m : Mat) (r c : Nat) (x : ℚ) (r2 : Nat) (h : r2 ≠ r) :
    getRow (setEntry m r c x) r2 = getRow m r2 :=
  getRow_set_ne m r r2 _ (fun he => h he.symm)

theorem getRow_setEntry_self (m : Mat) (r c : Nat) (x : ℚ) (h : r < nrows m) :
    getRow (setEntry m r c x) r = (getRow m r).set c x :=
  getRow_set_self m r _ h

theorem getRow_linearCombRows_ne (m : Mat) (r1 : Nat) (a : ℚ) (r2 : Nat) (b : ℚ) (r : Nat)
    (h : r ≠ r1) : getRow (linearCombRows m r1 a r2 b) r = getRow m r :=
  getRow_set_ne m r1 r _ (fun he => h he.symm)

theorem getRow_linearCombRows_self (m : Mat) (r1 : Nat) (a : ℚ) (r2 : Nat) (b : ℚ)
    (h : r1 < nrows m) :
    getRow (linearCombRows m r1 a r2 b) r1 =
      List.zipWith (fun x y => a * x + b * y) (getRow m r1) (getRow m r2) :=
  getRow_set_self m r1 _ h

theorem getRow_exchangeRows_fst (m : Mat) (r1 r2 : Nat) (h1 : r1 < nrows m) :
    getRow (exchangeRows m r1 r2) r1 = getRow m r2 := by
  rw [exchangeRows]
  by_cases he : r2 = r1
  · subst he
    rw [getRow_set_self _ _ _ (by rwa [nrows_set])]
  · rw [getRow_set_ne _ _ _ _ he, getRow_set_self _ _ _ h1]

theorem getRow_exchangeRows_snd (m : Mat) (r1 r2 : Nat) (h2 : r2 < nrows m) :
    getRow (exchangeRows m r1 r2) r2 = getRow m r1 := by
  rw [exchangeRows, getRow_set_self _ _ _ (by rwa [nrows_set])]

theorem getRow_exchangeRows_other (m : Mat) (r1 r2 r : Nat) (h1 : r ≠ r1) (h2 : r ≠ r2) :
    getRow (exchangeRows m r1 r2) r = getRow m r := by
  rw [exchangeRows, getRow_set_ne _ _ _ _ (fun he => h2 he.symm),
    getRow_set_ne _ _ _ _ (fun he => h1 he.symm)]

theorem entry_scaleRow_self (m : Mat) (r c : Nat) (f : ℚ) (hr : r < nrows m)
    (hc : c < (getRow m r).length) :
    entry (scaleRow m r f) r c = entry m r c * f := by
  rw [entry, getRow_scaleRow_self m r f hr, list_getD_map _ _ _ _ hc, entry,
    list_getD_eq_getElem _ c 0 hc]

theorem entry_scaleRow_ne (m : Mat) (r r2 c : Nat) (f : ℚ) (h : r2 ≠ r) :
    entry (scaleRow m r f) r2 c = entry m r2 c := by
  rw [entry, getRow_scaleRow_ne m r r2 f h, entry]

theorem entry_setEntry_self (m : Mat) (r c : Nat) (x : ℚ) (hr : r < nrows m)
    (hc : c < (getRow m r).length) :
    entry (setEntry m r c x) r c = x := by
  rw [entry, getRow_setEntry_self m r c x hr, list_getD_set_self _ _ _ _ hc]

theorem entry_setEntry_ne (m : Mat) (r c : Nat) (x : ℚ) (r2 c2 : Nat)
    (h : r2 ≠ r ∨ c2 ≠ c) :
    entry (setEntry m r c x) r2 c2 = entry m r2 c2 := by
  by_cases hr : r2 = r
  · subst hr
    rcases h with h | h
    · exact absurd rfl h
    · by_cases hb : r2 < nrows m
      · rw [entry, getRow_setEntry_self m r2 c x hb, list_getD_set_ne _ _ _ _ _ (fun he => h he.symm), entry]
      · rw [entry, setEntry, set_out m r2 _ (by omega), entry]
  · rw [entry, getRow_setEntry_ne m r c x r2 hr, entry]

theorem entry_linearCombRows_self (m : Mat) (r1 : Nat) (a : ℚ) (r2 : Nat) (b : ℚ) (c : Nat)
    (h : r1 < nrows m) (hc1 : c < (getRow m r1).length) (hc2 : c < (getRow m r2).length) :
    entry (linearCombRows m r1 a r2 b) r1 c = a * entry m r1 c + b * entry m r2 c := by
  rw [entry, getRow_linearCombRows_self m r1 a r2 b h,
    list_getD_zipWith _ _ _ _ _ hc1 hc2, entry, entry,
    list_getD_eq_getElem _ c 0 hc1, list_getD_eq_getElem _ c 0 hc2]

theorem entry_linearCombRows_ne (m : Mat) (r1 : Nat) (a : ℚ) (r2 : Nat) (b : ℚ) (r c : Nat)
    (h : r ≠ r1) : entry (linearCombRows m r1 a r2 b) r c = entry m r c := by
  rw [entry, getRow_linearCombRows_ne m r1 a r2 b r h, entry]

/-! ## Well-formedness preservation -/

theorem matWf_scaleRow (m : Mat) (r : Nat) (f : ℚ) (wf : MatWf m) :
    MatWf (scaleRow m r f) := by
  by_cases h : r < nrows m
  · exact matWf_set m r _ wf (by rw [List.length_map]; exact length_getRow m r wf h)
  · rw [scaleRow, set_out m r _ (by omega)]; exact wf

theorem ncols_scaleRow (m : Mat) (r : Nat) (f : ℚ) (wf : MatWf m) :
    ncols (scaleRow m r f) = ncols m := by
  by_cases h : r < nrows m
  · exact ncols_set m r _ (by rw [List.length_map]; exact length_getRow m r wf h)
  · rw [scaleRow, set_out m r _ (by omega)]

theorem matWf_setEntry (m : Mat) (r c : Nat) (x : ℚ) (wf : MatWf m) :
    MatWf (setEntry m r c x) := by
  by_cases h : r < nrows m
  · exact matWf_set m r _ wf (by rw [List.length_set]; exact length_getRow m r wf h)
  · rw [setEntry, set_out m r _ (by omega)]; exact wf

theorem ncols_setEntry (m : Mat) (r c : Nat) (x : ℚ) (wf : MatWf m) :
    ncols (setEntry m r c x) = ncols m := by
  by_cases h : r < nrows m
  · exact ncols_set m r _ (by rw [List.length_set]; exact length_getRow m r wf h)
  · rw [setEntry, set_out m r _ (by omega)]

theorem matWf_linearCombRows (m : Mat) (r1 : Nat) (a : ℚ) (r2 : Nat) (b : ℚ)
    (wf : MatWf m) (h2 : r2 < nrows m) : MatWf (linearCombRows m r1 a r2 b) := by
  by_cases h : r1 < nrows m
  · refine matWf_set m r1 _ wf ?_
    rw [List.length_zipWith, length_getRow m r1 wf h, length_getRow m r2 wf h2]
    exact Nat.min_self _
  · rw [linearCombRows, set_out m r1 _ (by omega)]; exact wf

theorem ncols_linearCombRows (m : Mat) (r1 : Nat) (a : ℚ) (r2 : Nat) (b : ℚ)
    (wf : MatWf m) (h2 : r2 < nrows m) : ncols (linearCombRows m r1 a r2 b) = ncols m := by
  by_cases h : r1 < nrows m
  · refine ncols_set m r1 _ ?_
    rw [List.length_zipWith, length_getRow m r1 wf h, length_getRow m r2 wf h2]
    exact Nat.min_self _
  · rw [linearCombRows, set_out m r1 _ (by omega)]

theorem matWf_exchangeRows (m : Mat) (r1 r2 : Nat) (wf : MatWf m)
    (h1 : r1 < nrows m) (h2 : r2 < nrows m) : MatWf (exchangeRows m r1 r2) := by
  have w1 : MatWf (m.set r1 (getRow m r2)) := matWf_set m r1 _ wf (length_getRow m r2 wf h2)
  have hc1 : ncols (m.set r1 (getRow m r2)) = ncols m := ncols_set m r1 _ (length_getRow m r2 wf h2)
  refine matWf_set _ r2 _ w1 ?_
  rw [hc1]
  have : getRow (m.set r1 (getRow m r2)) r1 = getRow m r2 := getRow_set_self m r1 _ h1
  exact length_getRow m r1 wf h1

theorem ncols_exchangeRows (m : Mat) (r1 r2 : Nat) (wf : MatWf m)
    (h1 : r1 < nrows m) (h2 : r2 < nrows m) : ncols (exchangeRows m r1 r2) = ncols m := by
  have hc1 : ncols (m.set r1 (getRow m r2)) = ncols m := ncols_set m r1 _ (length_getRow m r2 wf h2)
  rw [exchangeRows, ncols_set _ r2 _ (by rw [hc1]; exact length_getRow m r1 wf h1), hc1]

theorem getElem?_eq_getRow (m : Mat) (n : Nat) (h : n < nrows m) : m[n]? = some (getRow m n) := by
  rw [List.getElem?_eq_getElem h, getRow, list_getD_eq_getElem m n [] h]

theorem mat_ext (m1 m2 : Mat) (hn : nrows m1 = nrows m2)
    (h : ∀ n, n < nrows m1 → getRow m1 n = getRow m2 n) : m1 = m2 := by
  apply List.ext_getElem?
  intro n
  by_cases hlt : n < nrows m1
  · rw [getElem?_eq_getRow m1 n hlt, getElem?_eq_getRow m2 n (hn ▸ hlt), h n hlt]
  · rw [List.getElem?_eq_none (show nrows m1 ≤ n by omega),
      List.getElem?_eq_none (show nrows m2 ≤ n by omega)]

theorem modSqReal_nonneg (v : List ℝ) : 0 ≤ modSqReal v := by
  apply List.sum_nonneg
  intro x hx
  rcases List.mem_map.mp hx with ⟨y, _, rfl⟩
  exact mul_self_nonneg y

/-- C1: `are_linearly_dependent` on equal-length vectors succeeds and
returns true exactly when `dot(v1,v2)^2 = |v1|^2 * |v2|^2` (exact equality,
`Vector::mod()` being the squared magnitude); on unequal lengths it fails
with `INCOMPATIBLE_VECTORS`. -/
theorem are_linearly_dependent_spec (v1 v2 : List ℚ) :
    (v1.length = v2.length →
      are_linearly_dependent v1 v2
          = .ok (decide (dot v1 v2 * dot v1 v2 = modSq v1 * modSq v2))
        ∧ (are_linearly_dependent v1 v2 = .ok true
            ↔ dot v1 v2 * dot v1 v2 = modSq v1 * modSq v2))
    ∧ (v1.length ≠ v2.length →
        are_linearly_dependent v1 v2 = .err ErrorCode.INCOMPATIBLE_VECTORS) := by
  constructor
  · intro h
    rw [are_linearly_dependent, if_pos h]
    refine ⟨rfl, ?_⟩
    constructor
    · intro he
      have : decide (dot v1 v2 * dot v1 v2 = modSq v1 * modSq v2) = true := by
        injection he
      exact of_decide_eq_true this
    · intro he
      rw [decide_eq_true he]
  · intro h
    rw [are_linearly_dependent, if_neg h]

theorem are_linearly_dependent_spec_witness :
    are_linearly_dependent [1, 2] [-1, -2] = .ok true
    ∧ are_linearly_dependent [1, 2] [1, 55] = .ok false
    ∧ are_linearly_dependent [1, 2, 3] [1, 2] = .err ErrorCode.INCOMPATIBLE_VECTORS := by
  refine ⟨((are_linearly_dependent_spec [1, 2] [-1, -2]).1 rfl).2.mpr
      (by norm_num [dot, modSq]), ?_, ?_⟩
  · have h := ((are_linearly_dependent_spec [1, 2] [1, 55]).1 rfl).1
    rw [h]
    norm_num [dot, modSq]
  · exact (are_linearly_dependent_spec [1, 2, 3] [1, 2]).2 (by decide)

/-- C2: `cosine_angle` on equal-length vectors succeeds and returns
`dot(v1,v2) / sqrt(|v1|^2 * |v2|^2)`, which equals
`dot(v1,v2) / (|v1| * |v2|)`. -/
theorem cosine_angle_spec (v1 v2 : List ℝ) (h : v1.length = v2.length) :
    cosine_angle v1 v2
      = .ok (dotReal v1 v2 / Real.sqrt (modSqReal v1 * modSqReal v2))
    ∧ cosine_angle v1 v2 = .ok (dotReal v1 v2 / (magnitude v1 * magnitude v2)) := by
  have hs : Real.sqrt (modSqReal v1 * modSqReal v2) = magnitude v1 * magnitude v2 := by
    rw [magnitude, magnitude, Real.sqrt_mul (modSqReal_nonneg v1)]
  constructor
  · rw [cosine_angle, if_pos h]
  · rw [cosine_angle, if_pos h, hs]

theorem cosine_angle_spec_witness :
    cosine_angle [1, 0] [0, 1]
      = .ok (dotReal [1, 0] [0, 1] / (magnitude [1, 0] * magnitude [0, 1])) :=
  (cosine_angle_spec [1, 0] [0, 1] rfl).2

/-- C5: the row operations' bounds guards are written `index > nrows`
instead of `index >= nrows`: an index exactly equal to nrows passes the
guard and dereferences `rows[nrows]` (an out-of-bounds access, undefined
behavior) instead of raising `out_of_range`; indices strictly greater than
nrows do raise `out_of_range`. Evaluated on a 2x2 matrix. -/
theorem row_ops_bounds_check_gap :
    linearCombRowsChecked [[1, 0], [0, 1]] 2 1 0 1 = .ub
    ∧ exchangeRowsChecked [[1, 0], [0, 1]] 2 0 = .ub
    ∧ scaleRowChecked [[1, 0], [0, 1]] 2 1 = .ub
    ∧ linearCombRowsChecked [[1, 0], [0, 1]] 3 1 0 1 = .oob
    ∧ exchangeRowsChecked [[1, 0], [0, 1]] 3 0 = .oob
    ∧ scaleRowChecked [[1, 0], [0, 1]] 3 1 = .oob := by
  decide

/-- C6: when `nrows < ncols - 1` (fewer equations than unknowns), the
Gauss-Jordan solver fails with `UNDERDETERMINED_SYSTEM` before any
reduction, returning the caller's matrix unchanged. -/
theorem gaussJordan_underdetermined (m : Mat) (h : nrows m < ncols m - 1) :
    gaussJordan m = (m, .err ErrorCode.UNDERDETERMINED_SYSTEM) := by
  rw [gaussJordan, if_pos h]

theorem gaussJordan_underdetermined_witness :
    gaussJordan [[1, 0, 0, 0, 1], [0, 1, 0, 0, 1], [0, 0, 1, 0, 1]]
      = ([[1, 0, 0, 0, 1], [0, 1, 0, 0, 1], [0, 0, 1, 0, 1]],
          .err ErrorCode.UNDERDETERMINED_SYSTEM) :=
  gaussJordan_underdetermined [[1, 0, 0, 0, 1], [0, 1, 0, 0, 1], [0, 0, 1, 0, 1]] (by decide)

/-- C9: applying `exchangeRows(r1, r2)` twice with in-bounds row indices
restores the original matrix exactly. -/
theorem exchangeRows_involutive (m : Mat) (r1 r2 : Nat)
    (h1 : r1 < nrows m) (h2 : r2 < nrows m) :
    exchangeRows (exchangeRows m r1 r2) r1 r2 = m := by
  have hn1 : nrows (exchangeRows m r1 r2) = nrows m := nrows_exchangeRows m r1 r2
  apply mat_ext
  · rw [nrows_exchangeRows, hn1]
  · intro n hlt
    rw [nrows_exchangeRows, hn1] at hlt
    by_cases e2 : n = r2
    · subst e2
      rw [getRow_exchangeRows_snd _ r1 n (by rwa [hn1]),
        getRow_exchangeRows_fst m r1 n h1]
    · by_cases e1 : n = r1
      · subst e1
        rw [getRow_exchangeRows_fst _ n r2 (by rwa [hn1]),
          getRow_exchangeRows_snd m n r2 h2]
      · rw [getRow_exchangeRows_other _ r1 r2 n e1 e2,
          getRow_exchangeRows_other m r1 r2 n e1 e2]

theorem exchangeRows_involutive_witness :
    exchangeRows (exchangeRows [[1, 2], [3, 4]] 0 1) 0 1 = [[1, 2], [3, 4]] :=
  exchangeRows_involutive [[1, 2], [3, 4]] 0 1 (by decide) (by decide)

/-! ## Trace lemmas for the rref loop -/

theorem rrefLoop_append (a : Nat) (b : Nat) (m : Mat) (free : Bool) (i : Nat) :
    rrefLoop m free i (a + b)
      = rrefLoop (rrefLoop m free i a).1 (rrefLoop m free i a).2 (i + a) b := by
  induction a generalizing m free i with
  | zero => simp [rrefLoop]
  | succ a ih =>
    have : a + 1 + b = (a + b) + 1 := by omega
    rw [this, rrefLoop, rrefLoop]
    rw [ih]
    have : i + 1 + a = i + (a + 1) := by omega
    rw [this]

theorem rrefLoop_fst_flag (m : Mat) (free : Bool) (i fuel : Nat) :
    (rrefLoop m free i fuel).1 = (rrefLoop m false i fuel).1 := by
  induction fuel generalizing m free i with
  | zero => rfl
  | succ fuel ih =>
    rw [rrefLoop, rrefLoop]
    exact (ih _ _ _).trans (ih _ _ _).symm

theorem rrefLoop_flag_true (m : Mat) (i fuel : Nat) :
    (rrefLoop m true i fuel).2 = true := by
  induction fuel generalizing m i with
  | zero => rfl
  | succ fuel ih => rw [rrefLoop]; exact ih _ _

theorem rrefState_zero (m : Mat) : rrefState m 0 = m := rfl

theorem rrefState_succ (m : Mat) (k : Nat) :
    rrefState m (k + 1) = (pivotStep (rrefState m k) k).1 := by
  rw [rrefState, rrefLoop_append k 1 m false 0]
  rw [show (0 + k) = k by omega]
  rw [rrefLoop, rrefLoop]
  rw [rrefState]

theorem rrefLoop_succ_last (m : Mat) (n : Nat) :
    rrefLoop m false 0 (n + 1)
      = ((pivotStep (rrefState m n) n).1,
          (rrefLoop m false 0 n).2 || (pivotStep (rrefState m n) n).2) := by
  rw [rrefLoop_append n 1 m false 0, show (0 + n) = n by omega]
  rfl

theorem rrefLoop_flag_iff (m : Mat) (n : Nat) :
    (rrefLoop m false 0 n).2 = true
      ↔ ∃ k, k < n ∧ (pivotStep (rrefState m k) k).2 = true := by
  induction n with
  | zero =>
    simp only [rrefLoop]
    constructor
    · intro h; cases h
    · rintro ⟨k, hk, _⟩; omega
  | succ n ih =>
    rw [rrefLoop_succ_last m n]
    constructor
    · intro h
      rcases Bool.or_eq_true_iff.mp h with h | h
      · rcases ih.mp h with ⟨k, hk, hs⟩
        exact ⟨k, by omega, hs⟩
      · exact ⟨n, by omega, h⟩
    · rintro ⟨k, hk, hs⟩
      rw [Bool.or_eq_true_iff]
      rcases Nat.lt_succ_iff_lt_or_eq.mp hk with hk | hk
      · exact Or.inl (ih.mpr ⟨k, hk, hs⟩)
      · subst hk
        exact Or.inr hs

theorem pivotStep_flag_iff (s : Mat) (k : Nat) :
    (pivotStep s k).2 = true ↔ entry s k k = 0 ∧ findNextPivot s k k = none := by
  rw [pivotStep]
  by_cases hz : entry s k k = 0
  · rw [if_pos hz]
    cases hf : findNextPivot s k k with
    | none => simp [hz]
    | some j => simp [hz, hf]
  · rw [if_neg hz]
    simp [hz]

theorem freeAt_iff_pivotStep (m : Mat) (k : Nat) :
    freeAt m k ↔ (pivotStep (rrefState m k) k).2 = true :=
  (pivotStep_flag_iff (rrefState m k) k).symm

theorem list_find?_first (p : Nat → Bool) (l : List Nat) (j : Nat) (h : l.find? p = some j) :
    ∃ l1 l2, l = l1 ++ j :: l2 ∧ (∀ x ∈ l1, p x = false) ∧ p j = true := by
  induction l with
  | nil => cases h
  | cons a t ih =>
    by_cases hpa : p a = true
    · rw [List.find?_cons_of_pos t hpa] at h
      injection h with h
      subst h
      refine ⟨[], t, rfl, ?_, hpa⟩
      intro x hx
      exact absurd hx (List.not_mem_nil x)
    · rw [List.find?_cons_of_neg t (by simpa using hpa)] at h
      rcases ih h with ⟨l1, l2, heq, hall, hpj⟩
      refine ⟨a :: l1, l2, by rw [heq, List.cons_append], ?_, hpj⟩
      intro x hx
      rcases List.mem_cons.mp hx with rfl | hx
      · simpa using hpa
      · exact hall x hx

theorem find?_range_first (p : Nat → Bool) (n j : Nat)
    (h : (List.range n).find? p = some j) :
    j < n ∧ p j = true ∧ ∀ x, x < j → p x = false := by
  have hj : j ∈ List.range n := List.mem_of_find?_eq_some h
  have hjn : j < n := List.mem_range.mp hj
  rcases list_find?_first p (List.range n) j h with ⟨l1, l2, heq, hall, hpj⟩
  have htake : (List.range n).take l1.length = l1 := by
    rw [heq]; exact List.take_left l1 _
  have hlt : l1.length < n := by
    have := congrArg List.length heq
    simp at this
    omega
  have hl1 : l1 = List.range l1.length := by
    have h1 : List.range (min l1.length n) = l1 := by
      rw [← List.take_range]; exact htake
    conv_lhs => rw [← h1]
    rw [Nat.min_eq_left (by omega)]
  have hlen : l1.length = j := by
    have hget := congrArg (fun l => l.getD l1.length 0) heq
    simp only at hget
    rw [List.getD_append_right l1 _ _ _ (Nat.le_refl _), Nat.sub_self] at hget
    rw [list_getD_eq_getElem _ _ _ (by simpa using hlt), List.getElem_range] at hget
    exact hget
  refine ⟨hjn, hpj, ?_⟩
  intro x hx
  apply hall
  rw [hl1, hlen]
  exact List.mem_range.mpr hx

theorem findNextPivot_none_iff (m : Mat) (s c : Nat) :
    findNextPivot m s c = none ↔ ∀ r, s < r → r < nrows m → entry m r c = 0 := by
  rw [findNextPivot, List.find?_eq_none]
  constructor
  · intro h r hs hr
    have := h r (List.mem_range.mpr hr)
    by_contra hne
    exact this (by simp [hs, hne])
  · intro h x hx
    simp only [Bool.and_eq_true, decide_eq_true_eq, not_and]
    intro hs hne
    exact hne (h x hs (List.mem_range.mp hx))

theorem findNextPivot_some_spec (m : Mat) (s c j : Nat)
    (h : findNextPivot m s c = some j) :
    s < j ∧ j < nrows m ∧ entry m j c ≠ 0 ∧ ∀ r, s < r → r < j → entry m r c = 0 := by
  rw [findNextPivot] at h
  rcases find?_range_first _ _ _ h with ⟨hjn, hpj, hmin⟩
  simp only [Bool.and_eq_true, decide_eq_true_eq] at hpj
  refine ⟨hpj.1, hjn, hpj.2, ?_⟩
  intro r hs hr
  have := hmin r hr
  simp only [Bool.and_eq_true, decide_eq_true_eq] at this
  by_contra hne
  rw [Bool.and_eq_false_iff] at this
  rcases this with h1 | h2
  · simp [hs] at h1
  · simp [hne] at h2

/-- C4: the RREF reducer iterates pivot indices 0 .. min(nrows,ncols)-1 and
(1) succeeds iff no pivot index ever flagged a free column, failing with
`FREE_COLUMNS_RREF` (and no other error) otherwise; (2) a flagged pivot
index leaves the matrix untouched for that iteration; (3) when the diagonal
entry is zero but a pivot exists below, the iteration first exchanges row i
with that row and then eliminates and normalizes; (4) `findNextPivot`
returns none iff every row below has a zero in the column, and otherwise
the first row below with a nonzero entry in the column. -/
theorem rref_pivoting_and_free_columns (m : Mat) :
    ((rref m).2 = none ↔ ∀ k, k < min (nrows m) (ncols m) → ¬ freeAt m k)
    ∧ ((rref m).2 = none ∨ (rref m).2 = some ErrorCode.FREE_COLUMNS_RREF)
    ∧ (rref m).1 = rrefState m (min (nrows m) (ncols m))
    ∧ (∀ k, freeAt m k → rrefState m (k + 1) = rrefState m k)
    ∧ (∀ k j, entry (rrefState m k) k k = 0 →
        findNextPivot (rrefState m k) k k = some j →
        rrefState m (k + 1) = elimNormalize (exchangeRows (rrefState m k) k j) k)
    ∧ (∀ s c, findNextPivot m s c = none ↔ ∀ r, s < r → r < nrows m → entry m r c = 0)
    ∧ (∀ s c j, findNextPivot m s c = some j →
        s < j ∧ j < nrows m ∧ entry m j c ≠ 0 ∧ ∀ r, s < r → r < j → entry m r c = 0) := by
  have hsnd : (rref m).2
      = if (rrefLoop m false 0 (min (nrows m) (ncols m))).2 then
          some ErrorCode.FREE_COLUMNS_RREF else none := rfl
  refine ⟨?_, ?_, rfl, ?_, ?_, findNextPivot_none_iff m, findNextPivot_some_spec m⟩
  · cases hfl : (rrefLoop m false 0 (min (nrows m) (ncols m))).2 with
    | true =>
      have h2 : (rref m).2 = some ErrorCode.FREE_COLUMNS_RREF := by rw [hsnd, hfl]; rfl
      rw [h2]
      rcases (rrefLoop_flag_iff m _).mp hfl with ⟨k, hk, hs⟩
      constructor
      · intro h; cases h
      · intro h
        exact absurd ((freeAt_iff_pivotStep m k).mpr hs) (h k hk)
    | false =>
      have h2 : (rref m).2 = none := by rw [hsnd, hfl]; rfl
      rw [h2]
      constructor
      · intro _ k hk hfree
        have := (rrefLoop_flag_iff m _).mpr ⟨k, hk, (freeAt_iff_pivotStep m k).mp hfree⟩
        rw [hfl] at this
        cases this
      · intro _; rfl
  · cases hfl : (rrefLoop m false 0 (min (nrows m) (ncols m))).2 with
    | true => right; rw [hsnd, hfl]; rfl
    | false => left; rw [hsnd, hfl]; rfl
  · intro k hfree
    rw [rrefState_succ m k, pivotStep, if_pos hfree.1, hfree.2]
  · intro k j hz hf
    rw [rrefState_succ m k, pivotStep, if_pos hz, hf]

theorem rref_pivoting_and_free_columns_witness :
    rrefState [[0, 1], [1, 0]] 1 = elimNormalize (exchangeRows [[0, 1], [1, 0]] 0 1) 0
    ∧ rrefState [[0, 0], [0, 1]] 1 = rrefState [[0, 0], [0, 1]] 0
    ∧ (rref [[0, 0], [0, 1]]).2 = some ErrorCode.FREE_COLUMNS_RREF := by
  refine ⟨(rref_pivoting_and_free_columns [[0, 1], [1, 0]]).2.2.2.2.1 0 1 ?_ ?_, ?_, ?_⟩
  · norm_num [rrefState, rrefLoop, entry, getRow]
  · norm_num [rrefState, rrefLoop, findNextPivot, nrows, entry, getRow, List.range_succ]
  · exact (rref_pivoting_and_free_columns [[0, 0], [0, 1]]).2.2.2.1 0
      ⟨by norm_num [rrefState, rrefLoop, entry, getRow],
        by norm_num [rrefState, rrefLoop, findNextPivot, nrows, entry, getRow, List.range_succ]⟩
  · rcases (rref_pivoting_and_free_columns [[0, 0], [0, 1]]).2.1 with h | h
    · exfalso
      have := (rref_pivoting_and_free_columns [[0, 0], [0, 1]]).1.mp h 0 (by norm_num [nrows, ncols])
      exact this ⟨by norm_num [rrefState, rrefLoop, entry, getRow],
        by norm_num [rrefState, rrefLoop, findNextPivot, nrows, entry, getRow, List.range_succ]⟩
    · exact h

theorem gjScan_iff (m : Mat) :
    gjScan m = true ↔ ∃ row ∈ m, falseIndentityRow row = true := by
  rw [gjScan, List.any_eq_true]
  constructor
  · rintro ⟨rn, hrn, hp⟩
    have hrn2 : rn < nrows m := List.mem_range.mp hrn
    exact ⟨getRow m (nrows m - rn - 1), getRow_mem m _ (by omega), hp⟩
  · rintro ⟨row, hmem, hp⟩
    rcases List.mem_iff_getElem.mp hmem with ⟨r, hr, hrow⟩
    refine ⟨nrows m - r - 1, List.mem_range.mpr (by simp only [nrows] at hr ⊢; omega), ?_⟩
    have hrr : nrows m - (nrows m - r - 1) - 1 = r := by
      simp only [nrows] at hr ⊢; omega
    rw [hrr, getRow, list_getD_eq_getElem m r [] (by simpa [nrows] using hr), hrow]
    exact hp

/-- C3: when the shape guard passes but the reducer fails (which is always
with `FREE_COLUMNS_RREF`), the solver returns `NO_SOLUTIONS` iff the
reduced matrix has a row whose coefficients are all zero but whose
right-hand side is nonzero, and `INFINITE_SOLUTIONS` otherwise; the
classification branch maps any other reducer error to `UNKNOWN_ERROR`. -/
theorem gaussJordan_classification (m m2 : Mat) (e : ErrorCode)
    (hshape : ¬ nrows m < ncols m - 1) (hr : rref m = (m2, some e)) :
    e = ErrorCode.FREE_COLUMNS_RREF
    ∧ (gaussJordan m = (m2, .err ErrorCode.NO_SOLUTIONS)
        ↔ ∃ row ∈ m2, falseIndentityRow row = true)
    ∧ ((¬ ∃ row ∈ m2, falseIndentityRow row = true) →
        gaussJordan m = (m2, .err ErrorCode.INFINITE_SOLUTIONS))
    ∧ (∀ e2, e2 ≠ ErrorCode.FREE_COLUMNS_RREF →
        gjClassify m2 e2 = ErrorCode.UNKNOWN_ERROR) := by
  have hefree : e = ErrorCode.FREE_COLUMNS_RREF := by
    rw [rref] at hr
    by_cases hfl : (rrefLoop m false 0 (min (nrows m) (ncols m))).2 = true
    · rw [hfl] at hr
      simp only [if_pos] at hr
      have := congrArg Prod.snd hr
      simp only at this
      injection this.symm
    · rw [Bool.not_eq_true] at hfl
      rw [hfl] at hr
      simp only [Bool.false_eq_true, if_false] at hr
      have := congrArg Prod.snd hr
      simp only at this
      cases this
  have hgj : gaussJordan m = (m2, .err (gjClassify m2 e)) := by
    rw [gaussJordan, if_neg hshape, hr]
  subst hefree
  refine ⟨rfl, ?_, ?_, ?_⟩
  · rw [hgj, gjClassify, if_pos rfl]
    constructor
    · intro h
      have := congrArg Prod.snd h
      simp only at this
      by_cases hs : gjScan m2 = true
      · exact (gjScan_iff m2).mp hs
      · rw [Bool.not_eq_true] at hs
        rw [hs] at this
        simp only [Bool.false_eq_true, if_false] at this
        cases this
    · intro h
      rw [(gjScan_iff m2).mpr h]
      simp only [if_pos]
  · intro h
    rw [hgj, gjClassify, if_pos rfl]
    have hs : gjScan m2 = false := by
      cases hs : gjScan m2 with
      | true => exact absurd ((gjScan_iff m2).mp hs) h
      | false => rfl
    rw [hs]
    simp only [Bool.false_eq_true, if_false]
  · intro e2 he2
    rw [gjClassify, if_neg he2]

theorem gaussJordan_classification_witness :
    gaussJordan [[1, 1, 2], [1, 1, 3]]
      = ([[1, 1, 2], [0, 0, 1]], .err ErrorCode.NO_SOLUTIONS) := by
  have hr : rref [[(1:ℚ), 1, 2], [1, 1, 3]] = ([[1, 1, 2], [0, 0, 1]],
      some ErrorCode.FREE_COLUMNS_RREF) := by
    norm_num [rref, rrefLoop, pivotStep, elimNormalize, elimLoop, elimRow, findNextPivot,
      exchangeRows, scaleRow, setEntry, linearCombRows, entry, getRow, nrows, ncols,
      List.range_succ]
  exact ((gaussJordan_classification [[1, 1, 2], [1, 1, 3]] [[1, 1, 2], [0, 0, 1]]
      ErrorCode.FREE_COLUMNS_RREF (by norm_num [nrows, ncols]) hr).2.1).mpr
    ⟨[0, 0, 1], by norm_num, by norm_num [falseIndentityRow]⟩

/-! ## The two linear-independence variants -/

theorem rref_error_cases (m : Mat) :
    (rref m).2 = none ∨ (rref m).2 = some ErrorCode.FREE_COLUMNS_RREF := by
  have hsnd : (rref m).2
      = if (rrefLoop m false 0 (min (nrows m) (ncols m))).2 then
          some ErrorCode.FREE_COLUMNS_RREF else none := rfl
  cases hfl : (rrefLoop m false 0 (min (nrows m) (ncols m))).2 with
  | true => right; rw [hsnd, hfl]; rfl
  | false => left; rw [hsnd, hfl]; rfl

theorem linIndepOutcome_ok (mat : Mat) : ∃ b, linIndepOutcome mat = .ok b := by
  rcases rref_error_cases mat with h | h
  · exact ⟨true, by rw [linIndepOutcome, h]⟩
  · exact ⟨false, by rw [linIndepOutcome, h]⟩

/-- C7 counterexample: the two observed variants of
`linear_independence_of_system` disagree on the vectors
`{[0,0,1],[0,1,0]}`: the homogeneous-augmented variant reduces the
2x4 matrix `[[0,0,1,0],[0,1,0,0]]` whose first diagonal pivot is a free
column (it answers false = dependent), while the bare-coefficient variant
reduces the 3x2 matrix `[[0,0],[0,1],[1,0]]`, secures both pivots by row
exchange and answers true = independent. -/
theorem lin_indep_variants_disagree :
    linearIndependenceOfSystem [[0, 0, 1], [0, 1, 0]] = .ok false
    ∧ linear_independence_of_system [[0, 0, 1], [0, 1, 0]] = .ok true := by
  constructor
  · norm_num [linearIndependenceOfSystem, linIndepOutcome, rref, rrefLoop, pivotStep,
      elimNormalize, elimLoop, elimRow, findNextPivot, exchangeRows, scaleRow, setEntry,
      linearCombRows, entry, getRow, nrows, ncols, List.range_succ]
  · norm_num [linear_independence_of_system, linIndepOutcome, rref, rrefLoop, pivotStep,
      elimNormalize, elimLoop, elimRow, findNextPivot, exchangeRows, scaleRow, setEntry,
      linearCombRows, entry, getRow, nrows, ncols, List.range_succ]

/-- C7 (amended): for every list of at least 2 vectors sharing the same
length, the two variants agree on success-vs-error — both always return a
success value — but the returned booleans can differ
(`lin_indep_variants_disagree`). -/
theorem lin_indep_variants_agree_on_status (vs : List (List ℚ))
    (h2 : 2 ≤ vs.length) (hlen : ∀ v ∈ vs, v.length = (vs.headD []).length) :
    ∃ b1 b2, linearIndependenceOfSystem vs = .ok b1
      ∧ linear_independence_of_system vs = .ok b2 := by
  have h1 : ¬ vs.length = 1 := by omega
  have hany : vs.any (fun v => decide (v.length ≠ (vs.headD []).length)) = false := by
    rw [List.any_eq_false]
    intro v hv
    simp [hlen v hv]
  rw [linearIndependenceOfSystem, linear_independence_of_system, if_neg h1, if_neg h1]
  simp only [hany, Bool.false_eq_true, if_false]
  by_cases hgt : vs.length > (vs.headD []).length
  · rw [if_pos hgt, if_pos hgt]
    exact ⟨false, false, rfl, rfl⟩
  · rw [if_neg hgt, if_neg hgt]
    rcases linIndepOutcome_ok (vs.map (fun v => v ++ [0])) with ⟨b1, hb1⟩
    rcases linIndepOutcome_ok
      ((List.range (vs.headD []).length).map (fun i => vs.map (fun v => v.getD i 0))) with
      ⟨b2, hb2⟩
    exact ⟨b1, b2, hb1, hb2⟩

theorem lin_indep_variants_agree_on_status_witness :
    ∃ b1 b2, linearIndependenceOfSystem [[0, 0, 1], [0, 1, 0]] = .ok b1
      ∧ linear_independence_of_system [[0, 0, 1], [0, 1, 0]] = .ok b2 :=
  lin_indep_variants_agree_on_status [[0, 0, 1], [0, 1, 0]] (by decide) (by decide)

/-- C10: `linearIndependenceOfSystem` reads `vectors[0]` with only the
`size == 1` guard before it, so the empty list reaches an out-of-bounds
`vectors[0]` access (modelled as `none`); on any non-empty list the access
is in bounds and the checked model agrees with the plain definition. -/
theorem lin_indep_empty_list_out_of_bounds (vs : List (List ℚ)) :
    linearIndependenceOfSystemChecked [] = none
    ∧ (vs ≠ [] → linearIndependenceOfSystemChecked vs = some (linearIndependenceOfSystem vs)) := by
  constructor
  · rfl
  · intro h
    cases vs with
    | nil => exact absurd rfl h
    | cons v0 t =>
      rw [linearIndependenceOfSystemChecked, linearIndependenceOfSystem]
      by_cases h1 : (v0 :: t).length = 1
      · rw [if_pos h1, if_pos h1]
      · rw [if_neg h1, if_neg h1]
        simp only [List.head?_cons, List.headD_cons]
        split_ifs <;> rfl

theorem lin_indep_empty_list_out_of_bounds_witness :
    linearIndependenceOfSystemChecked [[1, 0], [0, 1]]
      = some (linearIndependenceOfSystem [[1, 0], [0, 1]]) :=
  (lin_indep_empty_list_out_of_bounds [[1, 0], [0, 1]]).2 (by decide)

/-! ## RREF idempotence: invariants of a successful reduction -/

/-- Column j is fully reduced: diagonal entry 1, all other rows 0. -/
def ColReduced (m : Mat) (j : Nat) : Prop :=
  entry m j j = 1 ∧ ∀ r, r < nrows m → r ≠ j → entry m r j = 0

theorem elimRow_spec (m : Mat) (i r : Nat) (wf : MatWf m) (hi : i < nrows m)
    (hic : i < ncols m) (hpz : ∀ j, j < i → entry m i j = 0) :
    MatWf (elimRow m i r)
    ∧ nrows (elimRow m i r) = nrows m
    ∧ ncols (elimRow m i r) = ncols m
    ∧ getRow (elimRow m i r) i = getRow m i
    ∧ (∀ r2, r2 < nrows m → ∀ j, j < i → entry (elimRow m i r) r2 j = entry m r2 j)
    ∧ (∀ r2, r2 < nrows m → entry m r2 i = 0 → entry (elimRow m i r) r2 i = 0)
    ∧ (r < nrows m → r ≠ i → entry (elimRow m i r) r i = 0) := by
  rw [elimRow]
  by_cases hskip : entry m r i = 0 ∨ r = i
  · rw [if_pos hskip]
    refine ⟨wf, rfl, rfl, rfl, fun _ _ _ _ => rfl, fun _ _ hz => hz, ?_⟩
    intro _ hri
    rcases hskip with h | h
    · exact h
    · exact absurd h hri
  · rw [if_neg hskip]
    push_neg at hskip
    obtain ⟨hnz, hri⟩ := hskip
    by_cases hr : r < nrows m
    · set b := -(entry m r i / entry m i i) with hb
      set m2 := linearCombRows m r 1 i b with hm2
      have wf2 : MatWf m2 := matWf_linearCombRows m r 1 i b wf hi
      have hn2 : nrows m2 = nrows m := nrows_linearCombRows m r 1 i b
      have hc2 : ncols m2 = ncols m := ncols_linearCombRows m r 1 i b wf hi
      have wf3 : MatWf (setEntry m2 r i 0) := matWf_setEntry m2 r i 0 wf2
      have hlen2 : ∀ r2, r2 < nrows m → (getRow m2 r2).length = ncols m := by
        intro r2 h2
        rw [length_getRow m2 r2 wf2 (by omega), hc2]
      refine ⟨wf3, by rw [nrows_setEntry, hn2], by rw [ncols_setEntry m2 r i 0 wf2, hc2],
        ?_, ?_, ?_, ?_⟩
      · rw [getRow_setEntry_ne m2 r i 0 i (fun he => hri he.symm),
          getRow_linearCombRows_ne m r 1 i b i (fun he => hri he.symm)]
      · intro r2 h2 j hj
        by_cases he : r2 = r
        · subst he
          rw [entry_setEntry_ne m2 r2 i 0 r2 j (Or.inr (by omega)),
            entry_linearCombRows_self m r2 1 i b j hr
              (by rw [length_getRow m r2 wf hr]; omega)
              (by rw [length_getRow m i wf hi]; omega),
            hpz j hj]
          ring
        · rw [entry_setEntry_ne m2 r i 0 r2 j (Or.inl he),
            entry_linearCombRows_ne m r 1 i b r2 j he]
      · intro r2 h2 hz
        by_cases he : r2 = r
        · subst he
          rw [entry_setEntry_self m2 r2 i 0 (by omega) (by rw [hlen2 r2 h2]; omega)]
        · rw [entry_setEntry_ne m2 r i 0 r2 i (Or.inl he),
            entry_linearCombRows_ne m r 1 i b r2 i he]
          exact hz
      · intro _ _
        rw [entry_setEntry_self m2 r i 0 (by omega) (by rw [hlen2 r hr]; omega)]
    · rw [show (linearCombRows m r 1 i (-(entry m r i / entry m i i))) = m from by
        rw [linearCombRows]; exact set_out m r _ (by omega)]
      rw [show setEntry m r i 0 = m from by
        rw [setEntry]; exact set_out m r _ (by omega)]
      exact ⟨wf, rfl, rfl, rfl, fun _ _ _ _ => rfl, fun _ _ hz => hz, fun h _ => absurd h hr⟩

theorem entry_of_getRow_eq (m1 m2 : Mat) (r : Nat) (h : getRow m1 r = getRow m2 r) (j : Nat) :
    entry m1 r j = entry m2 r j := by
  rw [entry, h, entry]

theorem elimFold_spec (i : Nat) (l : List Nat) : ∀ (m : Mat), MatWf m → i < nrows m →
    i < ncols m → (∀ j, j < i → entry m i j = 0) →
    MatWf (l.foldl (fun acc r => elimRow acc i r) m)
    ∧ nrows (l.foldl (fun acc r => elimRow acc i r) m) = nrows m
    ∧ ncols (l.foldl (fun acc r => elimRow acc i r) m) = ncols m
    ∧ getRow (l.foldl (fun acc r => elimRow acc i r) m) i = getRow m i
    ∧ (∀ r2, r2 < nrows m → ∀ j, j < i →
        entry (l.foldl (fun acc r => elimRow acc i r) m) r2 j = entry m r2 j)
    ∧ (∀ r2, r2 < nrows m → entry m r2 i = 0 →
        entry (l.foldl (fun acc r => elimRow acc i r) m) r2 i = 0)
    ∧ (∀ r ∈ l, r < nrows m → r ≠ i →
        entry (l.foldl (fun acc r => elimRow acc i r) m) r i = 0) := by
  induction l with
  | nil =>
    intro m wf hi hic hpz
    exact ⟨wf, rfl, rfl, rfl, fun _ _ _ _ => rfl, fun _ _ hz => hz,
      fun r hr => absurd hr (List.not_mem_nil r)⟩
  | cons a t ih =>
    intro m wf hi hic hpz
    obtain ⟨wfK, hnK, hcK, hrowK, hcolsK, hpresK, hselfK⟩ :=
      elimRow_spec m i a wf hi hic hpz
    have hpzK : ∀ j, j < i → entry (elimRow m i a) i j = 0 := by
      intro j hj
      rw [entry_of_getRow_eq _ m i hrowK j]
      exact hpz j hj
    obtain ⟨wfR, hnR, hcR, hrowR, hcolsR, hpresR, hselfR⟩ :=
      ih (elimRow m i a) wfK (by omega) (by omega) hpzK
    rw [List.foldl_cons]
    refine ⟨wfR, by omega, by omega, hrowR.trans hrowK, ?_, ?_, ?_⟩
    · intro r2 h2 j hj
      rw [hcolsR r2 (by omega) j hj, hcolsK r2 h2 j hj]
    · intro r2 h2 hz
      exact hpresR r2 (by omega) (hpresK r2 h2 hz)
    · intro r hr hrn hri
      rcases List.mem_cons.mp hr with rfl | hrt
      · exact hpresR r (by omega) (hselfK hrn hri)
      · exact hselfR r hrt (by omega) hri

theorem elimLoop_spec (m : Mat) (i : Nat) (wf : MatWf m) (hi : i < nrows m)
    (hic : i < ncols m) (hpz : ∀ j, j < i → entry m i j = 0) :
    MatWf (elimLoop m i)
    ∧ nrows (elimLoop m i) = nrows m
    ∧ ncols (elimLoop m i) = ncols m
    ∧ getRow (elimLoop m i) i = getRow m i
    ∧ (∀ r2, r2 < nrows m → ∀ j, j < i → entry (elimLoop m i) r2 j = entry m r2 j)
    ∧ (∀ r, r < nrows m → r ≠ i → entry (elimLoop m i) r i = 0) := by
  obtain ⟨a, b, c, d, e, f, g⟩ := elimFold_spec i (List.range (nrows m)) m wf hi hic hpz
  exact ⟨a, b, c, d, e, fun r hr hri => g r (List.mem_range.mpr hr) hr hri⟩

theorem elimNormalize_spec (m : Mat) (i : Nat) (wf : MatWf m) (hi : i < nrows m)
    (hic : i < ncols m) (hpz : ∀ j, j < i → entry m i j = 0)
    (hpiv : entry m i i ≠ 0) :
    MatWf (elimNormalize m i)
    ∧ nrows (elimNormalize m i) = nrows m
    ∧ ncols (elimNormalize m i) = ncols m
    ∧ (∀ r2, r2 < nrows m → ∀ j, j < i → entry (elimNormalize m i) r2 j = entry m r2 j)
    ∧ ColReduced (elimNormalize m i) i := by
  obtain ⟨wf2, hn2, hc2, hrow2, hcols2, hzero2⟩ := elimLoop_spec m i wf hi hic hpz
  have hpiv2 : entry (elimLoop m i) i i = entry m i i :=
    entry_of_getRow_eq _ m i hrow2 i
  have hlen2 : (getRow (elimLoop m i) i).length = ncols m := by
    rw [length_getRow _ i wf2 (by omega), hc2]
  rw [elimNormalize]
  set f := 1 / entry (elimLoop m i) i i with hf
  refine ⟨matWf_scaleRow _ i f wf2, by rw [nrows_scaleRow, hn2],
    by rw [ncols_scaleRow _ i f wf2, hc2], ?_, ?_, ?_⟩
  · intro r2 h2 j hj
    by_cases he : r2 = i
    · subst he
      rw [entry_scaleRow_self _ r2 j f (by omega) (by rw [length_getRow _ r2 wf2 (by omega), hc2]; omega),
        hcols2 r2 h2 j hj, hpz j hj, zero_mul]
    · rw [entry_scaleRow_ne _ i r2 j f he, hcols2 r2 h2 j hj]
  · rw [entry_scaleRow_self _ i i f (by omega) (by rw [hlen2]; omega), hpiv2, hf, hpiv2,
      mul_one_div, div_self hpiv]
  · intro r hr hri
    rw [nrows_scaleRow, hn2] at hr
    rw [entry_scaleRow_ne _ i r i f hri]
    exact hzero2 r hr hri

theorem colReduced_exchangeRows (m : Mat) (r1 r2 jj : Nat)
    (h1 : r1 < nrows m) (h2 : r2 < nrows m) (hne1 : r1 ≠ jj) (hne2 : r2 ≠ jj)
    (hcr : ColReduced m jj) : ColReduced (exchangeRows m r1 r2) jj := by
  obtain ⟨hd, hc⟩ := hcr
  constructor
  · rw [entry_of_getRow_eq _ m jj
      (getRow_exchangeRows_other m r1 r2 jj (fun he => hne1 he.symm) (fun he => hne2 he.symm))]
    exact hd
  · intro r hr hrj
    rw [nrows_exchangeRows] at hr
    by_cases e1 : r = r1
    · subst e1
      rw [entry, getRow_exchangeRows_fst m r r2 h1]
      exact hc r2 h2 hne2
    · by_cases e2 : r = r2
      · subst e2
        rw [entry, getRow_exchangeRows_snd m r1 r h2]
        exact hc r1 h1 hne1
      · rw [entry, getRow_exchangeRows_other m r1 r2 r e1 e2]
        exact hc r hr hrj

theorem pivotStep_secure (m : Mat) (i : Nat) (wf : MatWf m)
    (hi : i < nrows m) (hic : i < ncols m)
    (hprev : ∀ j, j < i → ColReduced m j)
    (hflag : (pivotStep m i).2 = false) :
    MatWf (pivotStep m i).1
    ∧ nrows (pivotStep m i).1 = nrows m
    ∧ ncols (pivotStep m i).1 = ncols m
    ∧ (∀ j, j ≤ i → ColReduced (pivotStep m i).1 j) := by
  have main : ∀ m1 : Mat, MatWf m1 → nrows m1 = nrows m → ncols m1 = ncols m →
      (∀ j, j < i → ColReduced m1 j) → entry m1 i i ≠ 0 →
      MatWf (elimNormalize m1 i)
      ∧ nrows (elimNormalize m1 i) = nrows m
      ∧ ncols (elimNormalize m1 i) = ncols m
      ∧ (∀ j, j ≤ i → ColReduced (elimNormalize m1 i) j) := by
    intro m1 wf1 hn1 hc1 hprev1 hpiv1
    have hpz1 : ∀ j, j < i → entry m1 i j = 0 := by
      intro j hj
      exact (hprev1 j hj).2 i (by omega) (by omega)
    obtain ⟨wfE, hnE, hcE, hcolsE, hredE⟩ :=
      elimNormalize_spec m1 i wf1 (by omega) (by omega) hpz1 hpiv1
    refine ⟨wfE, by omega, by omega, ?_⟩
    intro j hj
    rcases Nat.lt_or_eq_of_le hj with hj | hj
    · obtain ⟨hd1, hc1j⟩ := hprev1 j hj
      constructor
      · rw [hcolsE j (by omega) j hj]
        exact hd1
      · intro r hr hrj
        rw [hnE] at hr
        rw [hcolsE r hr j hj]
        exact hc1j r (by omega) hrj
    · subst hj
      exact hredE
  by_cases hz : entry m i i = 0
  · cases hf : findNextPivot m i i with
    | none =>
      exfalso
      rw [pivotStep, if_pos hz, hf] at hflag
      cases hflag
    | some j =>
      obtain ⟨hij, hjn, hjz, _⟩ := findNextPivot_some_spec m i i j hf
      have hstep : (pivotStep m i).1 = elimNormalize (exchangeRows m i j) i := by
        rw [pivotStep, if_pos hz, hf]
      rw [hstep]
      apply main
      · exact matWf_exchangeRows m i j wf hi hjn
      · exact nrows_exchangeRows m i j
      · exact ncols_exchangeRows m i j wf hi hjn
      · intro jj hjj
        exact colReduced_exchangeRows m i j jj hi hjn (by omega) (by omega) (hprev jj hjj)
      · rw [entry, getRow_exchangeRows_fst m i j hi]
        exact hjz
  · have hstep : (pivotStep m i).1 = elimNormalize m i := by
      rw [pivotStep, if_neg hz]
    rw [hstep]
    exact main m wf rfl rfl hprev hz

theorem rrefLoop_invariant (fuel : Nat) : ∀ (m : Mat) (i : Nat), MatWf m →
    (∀ j, j < i → ColReduced m j) →
    i + fuel ≤ min (nrows m) (ncols m) →
    (rrefLoop m false i fuel).2 = false →
    MatWf (rrefLoop m false i fuel).1
    ∧ nrows (rrefLoop m false i fuel).1 = nrows m
    ∧ ncols (rrefLoop m false i fuel).1 = ncols m
    ∧ ∀ j, j < i + fuel → ColReduced (rrefLoop m false i fuel).1 j := by
  induction fuel with
  | zero =>
    intro m i wf hprev hle hfl
    exact ⟨wf, rfl, rfl, fun j hj => hprev j (by omega)⟩
  | succ fuel ih =>
    intro m i wf hprev hle hfl
    have hunfold : rrefLoop m false i (fuel + 1)
        = rrefLoop (pivotStep m i).1 (pivotStep m i).2 (i + 1) fuel := by
      rw [rrefLoop, Bool.false_or]
    have hs2 : (pivotStep m i).2 = false := by
      cases hcase : (pivotStep m i).2 with
      | false => rfl
      | true =>
        exfalso
        rw [hunfold, hcase, rrefLoop_flag_true] at hfl
        cases hfl
    have hflK : (rrefLoop (pivotStep m i).1 false (i + 1) fuel).2 = false := by
      rw [hunfold, hs2] at hfl
      exact hfl
    have hi : i < nrows m := by
      have h1 := Nat.min_le_left (nrows m) (ncols m)
      omega
    have hic : i < ncols m := by
      have h1 := Nat.min_le_right (nrows m) (ncols m)
      omega
    obtain ⟨wfK, hnK, hcK, hcolK⟩ := pivotStep_secure m i wf hi hic hprev hs2
    obtain ⟨wfR, hnR, hcR, hcolR⟩ := ih (pivotStep m i).1 (i + 1) wfK
      (fun j hj => hcolK j (by omega))
      (by rw [hnK, hcK]; omega) hflK
    rw [hunfold, hs2]
    refine ⟨wfR, by omega, by omega, ?_⟩
    intro j hj
    exact hcolR j (by omega)

theorem elim_fold_id (i : Nat) (l : List Nat) (m : Mat)
    (h : ∀ r ∈ l, elimRow m i r = m) :
    l.foldl (fun acc r => elimRow acc i r) m = m := by
  induction l with
  | nil => rfl
  | cons a t ih =>
    rw [List.foldl_cons, h a (List.mem_cons_self a t)]
    exact ih (fun r hr => h r (List.mem_cons_of_mem a hr))

theorem rrefLoop_fixed (m : Mat) : ∀ (i fuel : Nat),
    (∀ k, i ≤ k → k < i + fuel → pivotStep m k = (m, false)) →
    rrefLoop m false i fuel = (m, false) := by
  intro i fuel
  induction fuel generalizing i with
  | zero => intro _; rfl
  | succ fuel ih =>
    intro h
    rw [rrefLoop, h i (Nat.le_refl i) (by omega)]
    exact ih (i + 1) (fun k hk1 hk2 => h k (by omega) (by omega))

theorem pivotStep_of_reduced (m : Mat) (k : Nat) (hkr : k < nrows m)
    (hdiag : entry m k k = 1) (hcol : ∀ r, r < nrows m → r ≠ k → entry m r k = 0) :
    pivotStep m k = (m, false) := by
  have hnz : entry m k k ≠ 0 := by rw [hdiag]; exact one_ne_zero
  rw [pivotStep, if_neg hnz]
  have hloop : elimLoop m k = m := by
    apply elim_fold_id
    intro r hr
    rw [elimRow]
    by_cases he : r = k
    · rw [if_pos (Or.inr he)]
    · rw [if_pos (Or.inl (hcol r (List.mem_range.mp hr) he))]
  have hEN : elimNormalize m k = m := by
    rw [elimNormalize, hloop, hdiag]
    rw [show (1:ℚ)/1 = 1 by norm_num, scaleRow]
    rw [show (getRow m k).map (fun x => x * 1) = getRow m k by simp]
    rw [getRow, list_set_getD m k [] hkr]
  rw [hEN]

/-- C8: if `rref` succeeds on a matrix, running `rref` again on the reduced
result succeeds and returns the very same matrix (idempotence of a
successful reduction). -/
theorem rref_idempotent (m m2 : Mat) (wf : MatWf m) (h : rref m = (m2, none)) :
    rref m2 = (m2, none) := by
  have hfst : (rrefLoop m false 0 (min (nrows m) (ncols m))).1 = m2 := congrArg Prod.fst h
  have hflag : (rrefLoop m false 0 (min (nrows m) (ncols m))).2 = false := by
    have h2 : (rref m).2 = none := congrArg Prod.snd h
    cases hfl : (rrefLoop m false 0 (min (nrows m) (ncols m))).2 with
    | false => rfl
    | true =>
      exfalso
      have h3 : (rref m).2 = some ErrorCode.FREE_COLUMNS_RREF := by
        show (if (rrefLoop m false 0 (min (nrows m) (ncols m))).2 then
            some ErrorCode.FREE_COLUMNS_RREF else none) = _
        rw [hfl]
        rfl
      rw [h3] at h2
      cases h2
  obtain ⟨wf2, hn2, hc2, hcols⟩ := rrefLoop_invariant (min (nrows m) (ncols m)) m 0 wf
    (fun j hj => absurd hj (Nat.not_lt_zero j)) (by omega) hflag
  rw [hfst] at wf2 hn2 hc2 hcols
  have hd2 : min (nrows m2) (ncols m2) = min (nrows m) (ncols m) := by rw [hn2, hc2]
  have hminr := Nat.min_le_left (nrows m) (ncols m)
  have hsteps : ∀ k, k < min (nrows m) (ncols m) → pivotStep m2 k = (m2, false) := by
    intro k hk
    obtain ⟨hdiag, hcol⟩ := hcols k (by omega)
    exact pivotStep_of_reduced m2 k (by omega) hdiag hcol
  have hloop2 : rrefLoop m2 false 0 (min (nrows m) (ncols m)) = (m2, false) := by
    apply rrefLoop_fixed m2 0 (min (nrows m) (ncols m))
    intro k hk0 hk
    exact hsteps k (by omega)
  show ((rrefLoop m2 false 0 (min (nrows m2) (ncols m2))).1,
      if (rrefLoop m2 false 0 (min (nrows m2) (ncols m2))).2 then
        some ErrorCode.FREE_COLUMNS_RREF else none) = (m2, none)
  rw [hd2, hloop2]
  rfl

theorem rref_idempotent_witness :
    rref [[1, 0], [0, 1]] = ([[1, 0], [0, 1]], none) := by
  apply rref_idempotent [[2, 0], [0, 3]] [[1, 0], [0, 1]] (by decide)
  norm_num [rref, rrefLoop, pivotStep, elimNormalize, elimLoop, elimRow, findNextPivot,
    exchangeRows, scaleRow, setEntry, linearCombRows, entry, getRow, nrows, ncols,
    List.range_succ]
